import Mathlib

/-!
# Verification of mdbook-termlink against its specification

Shallow embedding of the mdbook-termlink preprocessor (src/glossary.rs,
src/linker.rs, src/config.rs, src/lib.rs).  Strings are modelled as
`List Char`; character classes (`char::is_alphanumeric`, `char::is_whitespace`,
the regex word class `\w`) are modelled on their ASCII fragment, which covers
every string appearing in the repository and its test-suite.  The external
pulldown-cmark parser/serializer pair is treated as the interface it is in
the spec (§6): documents are carried as their structural event streams, and
re-serialization is the identity on events.
-/

/-- Models Rust `char::is_alphanumeric` on the ASCII fragment:
uppercase letters, lowercase letters and decimal digits. -/
def isAlnumChar (c : Char) : Bool :=
  decide ((65 ≤ c.toNat ∧ c.toNat ≤ 90) ∨ (97 ≤ c.toNat ∧ c.toNat ≤ 122) ∨
    (48 ≤ c.toNat ∧ c.toNat ≤ 57))

/-- Models Rust `char::to_ascii_lowercase`: shift an ASCII uppercase letter
down by 32, leave every other character unchanged. -/
def toAsciiLower (c : Char) : Char :=
  if 65 ≤ c.toNat ∧ c.toNat ≤ 90 then Char.ofNat (c.toNat + 32) else c

/-- The regex word class `\w` (ASCII fragment): alphanumeric or underscore.
Used by the `\b` word-boundary assertions of `build_term_regex`. -/
def isWordChar (c : Char) : Bool :=
  isAlnumChar c || c == '_'

/-- Models Rust `char::is_whitespace` on the ASCII fragment. -/
def isWhitespaceChar (c : Char) : Bool :=
  c == ' ' || c == '\t' || c == '\n' || c == '\r'

/-- Models Rust `str::trim`: drop whitespace from both ends. -/
def trimChars (s : List Char) : List Char :=
  ((s.dropWhile isWhitespaceChar).reverse.dropWhile isWhitespaceChar).reverse

/-- Models Rust `str::to_lowercase` (ASCII fragment). -/
def lowerStr (s : List Char) : List Char :=
  s.map toAsciiLower

/-- The character-scanning loop of `generate_anchor` (src/glossary.rs):
alphanumeric characters are pushed lowercased, any run of other characters
is collapsed to one hyphen, and the `last_was_hyphen` flag (second argument)
starts out `true` so leading separators are suppressed. -/
def anchorCore : List Char → Bool → List Char
  | [], _ => []
  | c :: rest, lastHyphen =>
    if isAlnumChar c then toAsciiLower c :: anchorCore rest false
    else if lastHyphen then anchorCore rest lastHyphen
    else '-' :: anchorCore rest true

/-- The trailing cleanup of `generate_anchor`: if the scanned result ends
with `'-'`, pop that one character (Rust `ends_with('-')` + `pop`). -/
def stripTrail (l : List Char) : List Char :=
  if l.getLast? = some '-' then l.dropLast else l

/-- Models `generate_anchor` (src/glossary.rs): lowercase, collapse runs of
non-alphanumeric characters into single hyphens, strip leading and trailing
hyphens. -/
def generate_anchor (name : List Char) : List Char :=
  stripTrail (anchorCore name true)

/-- Models `extract_short_name` (src/glossary.rs): index of the first `'('`;
the slice before it, trimmed; kept only if non-empty and strictly shorter
than half the full name. -/
def extract_short_name (name : List Char) : Option (List Char) :=
  match name.findIdx? (fun c => c == '(') with
  | none => none
  | some i =>
    let short := trimChars (name.take i)
    if short ≠ [] ∧ short.length < name.length / 2 then some short else none

/-- Models the `Term` struct of src/glossary.rs. -/
structure Term where
  name : List Char
  anchor : List Char
  short_name : Option (List Char)
  definition : Option (List Char)
  aliases : List (List Char)
deriving DecidableEq

/-- Models `Term::new`: anchor and short name are derived from the name. -/
def Term.new (name : List Char) : Term :=
  { name := name, anchor := generate_anchor name,
    short_name := extract_short_name name, definition := none, aliases := [] }

/-- Models `Term::with_definition`. -/
def Term.with_definition (name : List Char) (definition : Option (List Char)) : Term :=
  { Term.new name with definition := definition }

/-- Models `Term::with_aliases`. -/
def Term.with_aliases (t : Term) (aliases : List (List Char)) : Term :=
  { t with aliases := aliases }

/-- Models `Term::searchable_forms`: the name, then the short name when
present, then the configured aliases. -/
def Term.searchable_forms (t : Term) : List (List Char) :=
  [t.name] ++ (match t.short_name with | some s => [s] | none => []) ++ t.aliases

/-- One character of `html_escape` (src/linker.rs).  The Rust code chains
`replace` calls for `&`, `<`, `>`, `"`; since no replacement string contains
a character replaced by a later pass and the `&` pass runs first, the chain
is equivalent to this single character-wise rewrite. -/
def escChar (c : Char) : List Char :=
  if c = '&' then "&amp;".data
  else if c = '<' then "&lt;".data
  else if c = '>' then "&gt;".data
  else if c = '"' then "&quot;".data
  else [c]

/-- Models `html_escape` (src/linker.rs). -/
def html_escape (s : List Char) : List Char :=
  (s.map escChar).flatten

/-- Case folding applied by the regex when `case_insensitive(!case_sensitive)`
is set on the builder: with case-sensitive matching characters are compared
as they are, otherwise both sides are compared lowercased (ASCII model of
the regex crate's case folding). -/
def foldChar (caseSensitive : Bool) (c : Char) : Char :=
  if caseSensitive then c else toAsciiLower c

/-- Whether position `i` of `text` holds a word character (out-of-range
positions count as non-word, as at the edges of a regex subject). -/
def wordAt (text : List Char) (i : Nat) : Bool :=
  match text.get? i with
  | some c => isWordChar c
  | none => false

/-- The regex `\b` assertion at position `i` of `text`: exactly one of the
previous character and the current character is a word character. -/
def boundaryAt (text : List Char) (i : Nat) : Bool :=
  (if i = 0 then false else wordAt text (i - 1)) != wordAt text i

/-- One alternative of the pattern `\b(f1|f2|...)\b` built by
`build_term_regex` (src/linker.rs) matching at position `i`: the form occurs
literally (up to case folding) and both ends sit on word boundaries.  The
forms are escaped literally in the Rust pattern, so the alternation has no
regex metacharacters and matches exactly these substrings. -/
def matchAt (cs : Bool) (form text : List Char) (i : Nat) : Bool :=
  ((text.drop i).take form.length).map (foldChar cs) == form.map (foldChar cs)
    && boundaryAt text i && boundaryAt text (i + form.length)

/-- `Regex::find` starting from `start`: the regex crate returns the match
with the leftmost starting position, and at that position the alternation
prefers earlier branches (leftmost-first semantics).  Returns the half-open
span `(start, end)`. -/
def findMatchFrom (cs : Bool) (forms : List (List Char)) (text : List Char)
    (start : Nat) : Option (Nat × Nat) :=
  (List.range' start (text.length + 1 - start)).findSome? (fun i =>
    forms.findSome? (fun f =>
      if matchAt cs f text i then some (i, i + f.length) else none))

/-- `Regex::find` on the whole subject. -/
def findMatch (cs : Bool) (forms : List (List Char)) (text : List Char) :
    Option (Nat × Nat) :=
  findMatchFrom cs forms text 0

/-- `Regex::find_iter`: successive non-overlapping leftmost matches (an
empty match advances by one position).  The fuel argument bounds the number
of iterations; `text.length + 2` always suffices. -/
def findIter (cs : Bool) (forms : List (List Char)) (text : List Char) :
    Nat → Nat → List (Nat × Nat)
  | 0, _ => []
  | fuel + 1, start =>
    match findMatchFrom cs forms text start with
    | none => []
    | some se => se :: findIter cs forms text fuel (if se.1 < se.2 then se.2 else se.2 + 1)

/-- Splices the replacement `mk matched` over each matched span, keeping the
text between spans (`Regex::replace_all`'s output assembly). -/
def spliceAll (text : List Char) (mk : List Char → List Char) :
    List (Nat × Nat) → Nat → List Char
  | [], pos => text.drop pos
  | se :: rest, pos =>
    ((text.drop pos).take (se.1 - pos)) ++ mk ((text.drop se.1).take (se.2 - se.1))
      ++ spliceAll text mk rest se.2

/-- Models `Regex::replace_all` for the literal alternation pattern. -/
def replaceAll (cs : Bool) (forms : List (List Char)) (mk : List Char → List Char)
    (text : List Char) : List Char :=
  spliceAll text mk (findIter cs forms text (text.length + 2) 0) 0

/-- The optional tooltip attribute of the generated link: present exactly
when the term has a definition, carrying the HTML-escaped definition. -/
def titleAttr (t : Term) : List Char :=
  match t.definition with
  | some d => " title=\"".data ++ html_escape d ++ "\"".data
  | none => []

/-- The link fragment format string of `replace_terms_in_text`:
`<a href="{gp}#{anchor}"{title} class="{css}">{escaped matched}</a>`. -/
def linkFragment (gp : List Char) (t : Term) (css : List Char)
    (matched : List Char) : List Char :=
  "<a href=\"".data ++ gp ++ "#".data ++ t.anchor ++ "\"".data ++ titleAttr t
    ++ " class=\"".data ++ css ++ "\">".data ++ html_escape matched ++ "</a>".data

/-- Models the `Config` struct (src/config.rs).  The compiled glob patterns
of `exclude-pages` are external (the `glob` crate); they are carried as the
match predicate they provide. -/
structure Config where
  glossary_path : List String
  link_first_only : Bool
  css_class : List Char
  case_sensitive : Bool
  exclude_pages : List String → Bool
  aliases : List (List Char × List (List Char))

/-- Models `Config::default` (src/config.rs). -/
def defaultConfig : Config :=
  { glossary_path := ["reference", "glossary.md"], link_first_only := true,
    css_class := "glossary-term".data, case_sensitive := false,
    exclude_pages := fun _ => false, aliases := [] }

/-- The body of the per-term loop of `replace_terms_in_text` (src/linker.rs):
skip when link-first-only and already linked; otherwise find a match, splice
in the link fragment (first occurrence only under link-first-only, every
occurrence otherwise) and record the anchor as linked.  The regex build
cannot fail for literal-escaped forms, so the `else { continue }` guard of
the Rust code has no model. -/
def replace_step (gp : List Char) (cfg : Config)
    (acc : List Char × List (List Char)) (term : Term) :
    List Char × List (List Char) :=
  if cfg.link_first_only && acc.2.contains term.anchor then acc
  else
    match findMatch cfg.case_sensitive term.searchable_forms acc.1 with
    | none => acc
    | some se =>
      let matched := (acc.1.drop se.1).take (se.2 - se.1)
      let newResult :=
        if cfg.link_first_only then
          acc.1.take se.1 ++ linkFragment gp term cfg.css_class matched ++ acc.1.drop se.2
        else
          replaceAll cfg.case_sensitive term.searchable_forms
            (fun m => linkFragment gp term cfg.css_class m) acc.1
      (newResult, term.anchor :: acc.2)

/-- Models `replace_terms_in_text` (src/linker.rs): fold the per-term loop
over the terms, threading the partially rewritten text and the set of
already linked anchors. -/
def replace_terms_in_text (text : List Char) (terms : List Term)
    (gp : List Char) (cfg : Config) (linked : List (List Char)) :
    List Char × List (List Char) :=
  terms.foldl (replace_step gp cfg) (text, linked)

/-- The context markers of the `Context` enum (src/linker.rs). -/
inductive Context where
  | normal
  | codeBlock
  | link
  | heading
  | image
deriving DecidableEq

/-- The structural tags relevant to the preprocessor.  `other` stands for
every pulldown-cmark tag the code does not inspect (paragraphs, emphasis,
lists, tables, ...), which all fall into the catch-all arms. -/
inductive STag where
  | codeBlock
  | link
  | image
  | heading
  | definitionList
  | definitionListTitle
  | definitionListDefinition
  | other
deriving DecidableEq

/-- The pulldown-cmark event stream (§6 of the spec): start/end tags, leaf
text, inline code, raw HTML, and the remaining leaf events (`other`). -/
inductive Event where
  | start (t : STag)
  | stop (t : STag)
  | text (s : List Char)
  | code (s : List Char)
  | html (s : List Char)
  | other
deriving DecidableEq

/-- The context pushed by `process_events` for a start tag: only code
blocks, links, images and headings push a marker. -/
def pushCtx : STag → Option Context
  | .codeBlock => some .codeBlock
  | .link => some .link
  | .image => some .image
  | .heading => some .heading
  | _ => none

/-- Whether an end tag pops the context stack: exactly the same four tags
(`End(TagEnd::CodeBlock | Link | Image | Heading(_))`). -/
def popsCtx (t : STag) : Bool :=
  t == .codeBlock || t == .link || t == .image || t == .heading

/-- The context-stack update of one event in `process_events`
(src/linker.rs): push for the four tracked start tags, pop for their end
tags, leave the stack alone otherwise.  The head of the list is the top of
the stack. -/
def stackStep (stack : List Context) (e : Event) : List Context :=
  match e with
  | .start t =>
    match pushCtx t with
    | some c => c :: stack
    | none => stack
  | .stop t => if popsCtx t then stack.tail else stack
  | _ => stack

/-- Models `process_events` (src/linker.rs): walk the event stream tracking
the context stack; a `Text` event whose top-of-stack context is `Normal`
(`last().copied().unwrap_or(Normal)`) is rewritten by
`replace_terms_in_text` and emitted as an `Html` event; every other event —
inline code, text under any other context, and all tags — is pushed through
unchanged. -/
def processEvents (terms : List Term) (gp : List Char) (cfg : Config) :
    List Event → List Context → List (List Char) → List Event × List (List Char)
  | [], _, linked => ([], linked)
  | .text s :: rest, stack, linked =>
    if stack.head?.getD .normal = .normal then
      let pr := replace_terms_in_text s terms gp cfg linked
      let r := processEvents terms gp cfg rest stack pr.2
      (.html pr.1 :: r.1, r.2)
    else
      let r := processEvents terms gp cfg rest stack linked
      (.text s :: r.1, r.2)
  | e :: rest, stack, linked =>
    let r := processEvents terms gp cfg rest (stackStep stack e) linked
    (e :: r.1, r.2)

/-- Pairs every event with the top-of-stack context in force when
`process_events` reaches it. -/
def annotateCtx : List Context → List Event → List (Event × Context)
  | _, [] => []
  | stack, e :: rest =>
    (e, stack.head?.getD .normal) :: annotateCtx (stackStep stack e) rest

/-- Models `add_term_links` (src/linker.rs) at the event level: sort the
terms by descending name length (stable, like Rust `sort_by_key` with
`Reverse`), start with a fresh linked set and the initial `[Normal]` stack.
The parse/serialize round trip of pulldown-cmark is the identity on the
event stream (§6 round-trip fidelity), so content is carried as events. -/
def add_term_links (content : List Event) (terms : List Term) (gp : List Char)
    (cfg : Config) : List Event :=
  let sorted := terms.mergeSort (fun a b => b.name.length ≤ a.name.length)
  (processEvents sorted gp cfg content [.normal] []).1

/-- The mutable state of the `parse_definition_lists` event loop
(src/glossary.rs). -/
structure PState where
  in_definition_list : Bool
  in_title : Bool
  in_definition : Bool
  current_title_text : List Char
  current_definition_text : List Char
  pending_title : Option (List Char)
  terms : List Term
deriving DecidableEq

/-- The initial parser state. -/
def initPState : PState :=
  ⟨false, false, false, [], [], none, []⟩

/-- The accumulated definition text as stored on a term: trimmed, `none`
when empty. -/
def pendingDefinition (st : PState) : Option (List Char) :=
  if trimChars st.current_definition_text = [] then none
  else some (trimChars st.current_definition_text)

/-- One arm of the `parse_definition_lists` event loop (src/glossary.rs).
`pending_title.take()` always clears the pending title; the term is pushed
only when the taken title is non-empty. -/
def parseStep (st : PState) (e : Event) : PState :=
  match e with
  | .start .definitionList => { st with in_definition_list := true }
  | .stop .definitionList =>
    let st := { st with in_definition_list := false }
    match st.pending_title with
    | some title =>
      if title ≠ [] then
        { st with pending_title := none, terms := st.terms ++ [Term.new title] }
      else { st with pending_title := none }
    | none => st
  | .start .definitionListTitle =>
    if st.in_definition_list then
      let st :=
        match st.pending_title with
        | some title =>
          if title ≠ [] then
            { st with pending_title := none,
                      terms := st.terms ++
                        [Term.with_definition title (pendingDefinition st)] }
          else { st with pending_title := none }
        | none => st
      { st with in_title := true, current_title_text := [],
                current_definition_text := [] }
    else st
  | .stop .definitionListTitle =>
    if st.in_title then
      { st with pending_title := some (trimChars st.current_title_text),
                in_title := false }
    else st
  | .start .definitionListDefinition =>
    if st.in_definition_list then { st with in_definition := true } else st
  | .stop .definitionListDefinition =>
    if st.in_definition then
      let st := { st with in_definition := false }
      match st.pending_title with
      | some title =>
        if title ≠ [] then
          { st with pending_title := none,
                    terms := st.terms ++
                      [Term.with_definition title (pendingDefinition st)],
                    current_definition_text := [] }
        else { st with pending_title := none }
      | none => st
    else st
  | .text s =>
    if st.in_title then
      { st with current_title_text := st.current_title_text ++ s }
    else if st.in_definition then
      { st with current_definition_text := st.current_definition_text ++ s }
    else st
  | .code s =>
    if st.in_title then
      { st with current_title_text := st.current_title_text ++ s }
    else if st.in_definition then
      { st with current_definition_text := st.current_definition_text ++ s }
    else st
  | _ => st

/-- Models `parse_definition_lists` (src/glossary.rs) on the glossary's
event stream. -/
def parse_definition_lists (content : List Event) : List Term :=
  (content.foldl parseStep initPState).terms

/-- Models `mdbook::book::Chapter` at the interface the preprocessor uses:
an optional source path (as components) and the structural content. -/
structure Chapter where
  path : Option (List String)
  content : List Event
deriving DecidableEq

/-- Models `BookItem`: a chapter, or a separator/part title (`other`).
The book is carried as the flat sequence `Book::iter` would produce. -/
inductive BookItem where
  | chapter (c : Chapter)
  | other
deriving DecidableEq

/-- Models `find_glossary_content` (src/glossary.rs): the first chapter
whose path equals the configured glossary path or ends with it as a
component-wise suffix (Rust `Path::ends_with`); error when none exists. -/
def find_glossary_content : List BookItem → List String →
    Except (List Char) (List Event)
  | [], gp =>
    .error ("Glossary file not found: ".data ++ (String.intercalate "/" gp).data)
  | .chapter c :: rest, gp =>
    match c.path with
    | some p =>
      if p = gp ∨ gp.isSuffixOf p then .ok c.content
      else find_glossary_content rest gp
    | none => find_glossary_content rest gp
  | .other :: rest, gp => find_glossary_content rest gp

/-- Models `extract_terms` (src/glossary.rs). -/
def extract_terms (book : List BookItem) (cfg : Config) :
    Except (List Char) (List Term) :=
  (find_glossary_content book cfg.glossary_path).map parse_definition_lists

/-- Models `Path::with_extension("html")` on a file name: the part after the
last dot is replaced by `html`; a name with no dot, or whose stem would be
empty, gets `.html` appended. -/
def withHtmlExt (f : List Char) : List Char :=
  let rev := f.reverse
  let afterDot := rev.takeWhile (fun c => c ≠ '.')
  if afterDot.length = rev.length then f ++ ".html".data
  else
    let stem := (rev.drop (afterDot.length + 1)).reverse
    if stem = [] then f ++ ".html".data else stem ++ ".html".data

/-- Models `get_glossary_html_path` (src/glossary.rs). -/
def get_glossary_html_path (p : List String) : List String :=
  match p.getLast? with
  | none => []
  | some f => p.dropLast ++ [String.mk (withHtmlExt f.data)]

/-- Models `calculate_relative_path` (src/linker.rs): `"../"` repeated once
per component of the chapter's containing directory, concatenated with the
glossary's rendered path as displayed — purely lexical. -/
def calculate_relative_path (from_chapter : List String)
    (to_glossary : List String) : List Char :=
  let depth := from_chapter.dropLast.length
  (List.replicate depth "../".data).flatten ++ (String.intercalate "/" to_glossary).data

/-- Models `Config::is_glossary_path` (src/config.rs). -/
def Config.is_glossary_path (cfg : Config) (p : List String) : Bool :=
  decide (p = cfg.glossary_path) || cfg.glossary_path.isSuffixOf p

/-- The per-chapter body of `Book::for_each_mut` in `run` (src/lib.rs):
draft chapters (no path), the glossary itself and excluded pages are left
alone; other chapters get term links added against the relative glossary
path.  The serialization failure arm (chapter left unmodified on a `cmark`
error) has no model because event-level serialization is total. -/
def processItem (cfg : Config) (terms : List Term) (ghp : List String) :
    BookItem → BookItem
  | .other => .other
  | .chapter c =>
    match c.path with
    | none => .chapter c
    | some p =>
      if cfg.is_glossary_path p then .chapter c
      else if cfg.exclude_pages p then .chapter c
      else
        .chapter ⟨some p, add_term_links c.content terms (calculate_relative_path p ghp) cfg⟩

/-- The alias-conflict check of `run` (src/lib.rs): some configured alias,
case-folded, equals the case-folded name of a term while differing from its
own term's case-folded name. -/
def aliasConflict (cfg : Config) (terms : List Term) : Bool :=
  let term_names := terms.map (fun t => lowerStr t.name)
  cfg.aliases.any (fun pr =>
    pr.2.any (fun a => term_names.contains (lowerStr a) && lowerStr a ≠ lowerStr pr.1))

/-- Models `TermlinkPreprocessor::run` (src/lib.rs): extract terms (a
missing glossary aborts the run), return the book untouched when no terms
were found, fail on an alias conflict, otherwise apply the configured
aliases and process every chapter. -/
def run (cfg : Config) (book : List BookItem) :
    Except (List Char) (List BookItem) :=
  match extract_terms book cfg with
  | .error e => .error e
  | .ok terms =>
    if terms = [] then .ok book
    else if aliasConflict cfg terms then .error "alias conflict".data
    else
      let terms := terms.map (fun t =>
        match cfg.aliases.find? (fun pr => pr.1 == t.name) with
        | some pr => t.with_aliases pr.2
        | none => t)
      .ok (book.map (processItem cfg terms (get_glossary_html_path cfg.glossary_path)))

theorem toNat_ofNat_valid (n : Nat) (h : n < 55296) : (Char.ofNat n).toNat = n := by
  have hv : n.isValidChar := Or.inl h
  unfold Char.ofNat
  rw [dif_pos hv]
  show (Char.ofNatAux n hv).toNat = n
  unfold Char.ofNatAux Char.toNat UInt32.toNat
  simp [BitVec.toNat_ofNatLt]

theorem isAlnumChar_iff (c : Char) : isAlnumChar c = true ↔
    ((65 ≤ c.toNat ∧ c.toNat ≤ 90) ∨ (97 ≤ c.toNat ∧ c.toNat ≤ 122) ∨
      (48 ≤ c.toNat ∧ c.toNat ≤ 57)) := by
  simp [isAlnumChar]

theorem toAsciiLower_toNat_of_upper (c : Char) (h : 65 ≤ c.toNat ∧ c.toNat ≤ 90) :
    (toAsciiLower c).toNat = c.toNat + 32 := by
  unfold toAsciiLower
  rw [if_pos h]
  exact toNat_ofNat_valid _ (by omega)

theorem toAsciiLower_of_not_upper (c : Char) (h : ¬(65 ≤ c.toNat ∧ c.toNat ≤ 90)) :
    toAsciiLower c = c := by
  unfold toAsciiLower
  rw [if_neg h]

theorem isAlnumChar_toAsciiLower (c : Char) (h : isAlnumChar c = true) :
    isAlnumChar (toAsciiLower c) = true := by
  rw [isAlnumChar_iff] at h ⊢
  by_cases hu : 65 ≤ c.toNat ∧ c.toNat ≤ 90
  · rw [toAsciiLower_toNat_of_upper c hu]
    omega
  · rw [toAsciiLower_of_not_upper c hu]
    omega

theorem toAsciiLower_idem (c : Char) :
    toAsciiLower (toAsciiLower c) = toAsciiLower c := by
  by_cases hu : 65 ≤ c.toNat ∧ c.toNat ≤ 90
  · have h2 := toAsciiLower_toNat_of_upper c hu
    apply toAsciiLower_of_not_upper
    omega
  · rw [toAsciiLower_of_not_upper c hu]
    exact toAsciiLower_of_not_upper c hu

theorem isAlnumChar_hyphen : isAlnumChar '-' = false := by decide

/-- The strings left fixed by the `generate_anchor` scanning loop started
with flag `b`: already-lowercased alphanumerics and single separating
hyphens, where a hyphen may not appear while the flag holds. -/
inductive AnchorFix : Bool → List Char → Prop
  | nil (b : Bool) : AnchorFix b []
  | alnum (b : Bool) (c : Char) (l : List Char) (h1 : isAlnumChar c = true)
      (h2 : toAsciiLower c = c) (tail : AnchorFix false l) : AnchorFix b (c :: l)
  | hyph (l : List Char) (tail : AnchorFix true l) : AnchorFix false ('-' :: l)

theorem anchorFix_anchorCore (l : List Char) : ∀ b, AnchorFix b (anchorCore l b) := by
  induction l with
  | nil => intro b; exact .nil b
  | cons c rest ih =>
    intro b
    unfold anchorCore
    by_cases h : isAlnumChar c = true
    · rw [if_pos h]
      exact .alnum b _ _ (isAlnumChar_toAsciiLower c h) (toAsciiLower_idem c) (ih false)
    · rw [if_neg h]
      cases b with
      | true => simpa using ih true
      | false => simpa using .hyph _ (ih true)

theorem anchorCore_of_fix {b : Bool} {l : List Char} (h : AnchorFix b l) :
    anchorCore l b = l := by
  induction h with
  | nil b => rfl
  | alnum b c l h1 h2 _ ih =>
    unfold anchorCore
    rw [if_pos h1, h2, ih]
  | hyph l _ ih =>
    unfold anchorCore
    rw [if_neg (by simp [isAlnumChar_hyphen]), if_neg (by simp), ih]

theorem anchorFix_dropLast {b : Bool} {l : List Char} (h : AnchorFix b l) :
    AnchorFix b l.dropLast := by
  induction h with
  | nil b => exact .nil b
  | alnum b c l h1 h2 tail ih =>
    cases l with
    | nil => exact .nil b
    | cons x xs => exact .alnum b c _ h1 h2 ih
  | hyph l tail ih =>
    cases l with
    | nil => exact .nil false
    | cons x xs => exact .hyph _ ih

theorem anchorFix_true_not_hyphen_head {l : List Char} (h : AnchorFix true ('-' :: l)) :
    False := by
  cases h with
  | alnum _ _ _ h1 => rw [isAlnumChar_hyphen] at h1; exact Bool.false_ne_true h1

theorem anchorFix_no_double_hyphen {b : Bool} {l : List Char} (h : AnchorFix b l)
    (hl : l.getLast? = some '-') : l.dropLast.getLast? ≠ some '-' := by
  induction h with
  | nil b => simp at hl
  | alnum b c l h1 h2 tail ih =>
    cases l with
    | nil =>
      simp at hl
      rw [hl, isAlnumChar_hyphen] at h1
      exact absurd h1 (by simp)
    | cons x xs =>
      rw [List.getLast?_cons_cons] at hl
      rw [List.dropLast_cons₂]
      cases hd : (x :: xs).dropLast with
      | nil => simp; intro hc; rw [hc, isAlnumChar_hyphen] at h1; simp at h1
      | cons y ys =>
        rw [List.getLast?_cons_cons]
        rw [← hd]
        exact ih hl
  | hyph l tail ih =>
    cases l with
    | nil => simp
    | cons x xs =>
      rw [List.getLast?_cons_cons] at hl
      rw [List.dropLast_cons₂]
      cases hd : (x :: xs).dropLast with
      | nil =>
        -- x :: xs is a singleton, so its last element is x, which is '-'
        cases xs with
        | nil =>
          simp at hl
          subst hl
          exact absurd tail anchorFix_true_not_hyphen_head
        | cons z zs => simp [List.dropLast_cons₂] at hd
      | cons y ys =>
        rw [List.getLast?_cons_cons]
        rw [← hd]
        exact ih hl

theorem stripTrail_getLast {b : Bool} {l : List Char} (h : AnchorFix b l) :
    (stripTrail l).getLast? ≠ some '-' := by
  unfold stripTrail
  by_cases hl : l.getLast? = some '-'
  · rw [if_pos hl]
    exact anchorFix_no_double_hyphen h hl
  · rw [if_neg hl]
    exact hl

theorem anchorFix_stripTrail {b : Bool} {l : List Char} (h : AnchorFix b l) :
    AnchorFix b (stripTrail l) := by
  unfold stripTrail
  by_cases hl : l.getLast? = some '-'
  · rw [if_pos hl]; exact anchorFix_dropLast h
  · rw [if_neg hl]; exact h

theorem stripTrail_of_getLast {l : List Char} (h : l.getLast? ≠ some '-') :
    stripTrail l = l := by
  unfold stripTrail
  rw [if_neg h]

theorem generate_anchor_idem (name : List Char) :
    generate_anchor (generate_anchor name) = generate_anchor name := by
  have h1 : AnchorFix true (anchorCore name true) := anchorFix_anchorCore name true
  have h2 : AnchorFix true (generate_anchor name) := anchorFix_stripTrail h1
  have h3 : anchorCore (generate_anchor name) true = generate_anchor name :=
    anchorCore_of_fix h2
  calc generate_anchor (generate_anchor name)
      = stripTrail (anchorCore (generate_anchor name) true) := rfl
    _ = stripTrail (generate_anchor name) := by rw [h3]
    _ = generate_anchor name := stripTrail_of_getLast (stripTrail_getLast h1)

/-- **C4.** Anchor generation is an idempotent pure function on strings
(`anchor(anchor(s)) = anchor(s)` for every string `s`) that collapses runs
of non-alphanumeric characters into single hyphens, lowercases, and strips
leading/trailing hyphens; in particular
`anchor("API (Application Programming Interface)") =
"api-application-programming-interface"`,
`anchor("  Spaced  Text  ") = "spaced-text"`, and
`anchor("under_score") = "under-score"`. -/
theorem c4_anchor_idempotent :
    (∀ s : List Char, generate_anchor (generate_anchor s) = generate_anchor s)
      ∧ generate_anchor "API (Application Programming Interface)".data =
          "api-application-programming-interface".data
      ∧ generate_anchor "  Spaced  Text  ".data = "spaced-text".data
      ∧ generate_anchor "under_score".data = "under-score".data :=
  ⟨generate_anchor_idem, by decide, by decide, by decide⟩

theorem findIdx_paren_none_iff (name : List Char) :
    name.findIdx? (fun c => c == '(') = none ↔ '(' ∉ name := by
  rw [List.findIdx?_eq_none_iff]
  constructor
  · intro h hc
    have := h '(' hc
    simp at this
  · intro h c hc
    simp only [beq_eq_false_iff_ne, ne_eq]
    intro he
    subst he
    exact h hc

theorem take_findIdx_eq_takeWhile (name : List Char) (i : Nat)
    (h : name.findIdx? (fun c => c == '(') = some i) :
    name.take i = name.takeWhile (fun c => c != '(') := by
  induction name generalizing i with
  | nil => simp at h
  | cons c rest ih =>
    rw [List.findIdx?_cons] at h
    by_cases hc : c = '('
    · rw [if_pos (by simpa using hc)] at h
      injection h with h
      subst h
      rw [List.takeWhile_cons, if_neg (by simpa using hc)]
      rfl
    · rw [if_neg (by simpa using hc), List.findIdx?_succ, Option.map_eq_some'] at h
      obtain ⟨j, hj, hij⟩ := h
      subst hij
      rw [List.take_succ_cons, List.takeWhile_cons, if_pos (by simpa using hc), ih j hj]

theorem extract_short_name_iff (name s : List Char) :
    extract_short_name name = some s ↔
      ('(' ∈ name ∧ s = trimChars (name.takeWhile (fun c => c != '(')) ∧ s ≠ [] ∧
        s.length < name.length / 2) := by
  cases hfi : name.findIdx? (fun c => c == '(') with
  | none =>
    have hmem := (findIdx_paren_none_iff name).mp hfi
    simp only [extract_short_name, hfi]
    constructor
    · intro h; exact absurd h (by simp)
    · rintro ⟨hm, -⟩; exact absurd hm hmem
  | some i =>
    have hmem : '(' ∈ name := by
      by_contra hm
      rw [← findIdx_paren_none_iff] at hm
      rw [hfi] at hm
      exact Option.noConfusion hm
    have htake := take_findIdx_eq_takeWhile name i hfi
    simp only [extract_short_name, hfi, htake]
    by_cases hcond : trimChars (name.takeWhile (fun c => c != '(')) ≠ [] ∧
        (trimChars (name.takeWhile (fun c => c != '('))).length < name.length / 2
    · rw [if_pos hcond]
      constructor
      · intro h
        injection h with h
        subst h
        exact ⟨hmem, rfl, hcond.1, hcond.2⟩
      · rintro ⟨-, rfl, -, -⟩
        rfl
    · rw [if_neg hcond]
      constructor
      · intro h; exact absurd h (by simp)
      · rintro ⟨-, rfl, h1, h2⟩
        exact absurd ⟨h1, h2⟩ hcond

/-- **C5.** Short-name extraction returns `some short` exactly when the name
contains a `'('` and the whitespace-trimmed substring before the first `'('`
is non-empty with length strictly below half the full name's length (integer
division, as in the code's `short.len() < name.len() / 2`), and `none`
otherwise; `shortName("API (Application Programming Interface)") = Some "API"`,
`shortName("XPT") = None`, `shortName("REST") = None`. -/
theorem c5_short_name :
    (∀ name s : List Char,
      extract_short_name name = some s ↔
        ('(' ∈ name ∧ s = trimChars (name.takeWhile (fun c => c != '(')) ∧
          s ≠ [] ∧ s.length < name.length / 2))
      ∧ extract_short_name "API (Application Programming Interface)".data =
          some "API".data
      ∧ extract_short_name "XPT".data = none
      ∧ extract_short_name "REST".data = none :=
  ⟨extract_short_name_iff, by decide, by decide, by decide⟩

theorem findSome?_isSome_of_mem {α β : Type} {l : List α} {f : α → Option β}
    (a : α) (ha : a ∈ l) (h : (f a).isSome) : (l.findSome? f).isSome := by
  induction l with
  | nil => simp at ha
  | cons b t ih =>
    rw [List.findSome?_cons]
    cases hb : f b with
    | some v => simp
    | none =>
      rcases List.mem_cons.mp ha with rfl | hm
      · rw [hb] at h
        simp at h
      · exact ih hm

theorem matchAt_le {cs : Bool} {form text : List Char} {i : Nat}
    (h : matchAt cs form text i = true) : i ≤ text.length := by
  by_contra hgt
  push_neg at hgt
  unfold matchAt at h
  simp only [Bool.and_eq_true] at h
  have hb : boundaryAt text i = true := h.1.2
  unfold boundaryAt at hb
  have h1 : wordAt text i = false := by
    unfold wordAt
    rw [(List.get?_eq_none).mpr (by omega)]
  have h2 : wordAt text (i - 1) = false := by
    unfold wordAt
    rw [(List.get?_eq_none).mpr (by omega)]
  rw [h1, h2, if_neg (by omega : ¬i = 0)] at hb
  simp at hb

theorem matchAt_end_le {cs : Bool} {form text : List Char} {i : Nat}
    (h : matchAt cs form text i = true) : i + form.length ≤ text.length := by
  have hi := matchAt_le h
  unfold matchAt at h
  simp only [Bool.and_eq_true, beq_iff_eq] at h
  have hlen := congrArg List.length h.1.1
  simp only [List.length_map, List.length_take, List.length_drop] at hlen
  omega

theorem findMatch_isSome_iff (cs : Bool) (forms : List (List Char)) (text : List Char) :
    (findMatch cs forms text).isSome ↔
      ∃ i form, form ∈ forms ∧ matchAt cs form text i = true := by
  unfold findMatch findMatchFrom
  constructor
  · intro h
    obtain ⟨se, hse⟩ := Option.isSome_iff_exists.mp h
    obtain ⟨i, hi, hfi⟩ := List.exists_of_findSome?_eq_some hse
    obtain ⟨f, hf, hff⟩ := List.exists_of_findSome?_eq_some hfi
    by_cases hm : matchAt cs f text i = true
    · exact ⟨i, f, hf, hm⟩
    · rw [if_neg hm] at hff
      exact Option.noConfusion hff
  · rintro ⟨i, f, hf, hm⟩
    apply findSome?_isSome_of_mem i
    · have := matchAt_le hm
      rw [List.mem_range'_1]
      omega
    · apply findSome?_isSome_of_mem f hf
      rw [if_pos hm]
      simp

/-- **C6.** The matcher built for a term is the alternation of all its
searchable forms, each matched literally, wrapped in word-boundary
assertions on both sides, with case folding controlled by `case_sensitive`:
a match exists exactly when some searchable form occurs at some position
with word boundaries; `"APIs"` contains no match for the term `"API"`, and
the term `"XPT"` matches `"xpt"` when `case_sensitive = false` but not when
`case_sensitive = true`. -/
theorem c6_term_matcher :
    (∀ (cs : Bool) (t : Term) (text : List Char),
      (findMatch cs t.searchable_forms text).isSome ↔
        ∃ i form, form ∈ t.searchable_forms ∧ matchAt cs form text i = true)
      ∧ findMatch false (Term.new "API".data).searchable_forms "APIs".data = none
      ∧ findMatch false (Term.new "XPT".data).searchable_forms "xpt".data = some (0, 3)
      ∧ findMatch true (Term.new "XPT".data).searchable_forms "xpt".data = none :=
  ⟨fun cs t text => findMatch_isSome_iff cs t.searchable_forms text,
    by decide, by decide, by decide⟩

/-- **C8.** The relative path from a document to the glossary is `"../"`
repeated once per path component of the document's containing directory,
prepended to the glossary's rendered path as given — purely lexical:
depth 0 gives no prefix, depth 1 gives `"../"`, depth 2 gives `"../../"`. -/
theorem c8_relative_path :
    (∀ (dir : List String) (file : String) (gloss : List String),
      calculate_relative_path (dir ++ [file]) gloss =
        (List.replicate dir.length "../".data).flatten ++
          (String.intercalate "/" gloss).data)
      ∧ calculate_relative_path ["intro.md"] ["glossary.html"] = "glossary.html".data
      ∧ calculate_relative_path ["chapter", "intro.md"] ["glossary.html"] =
          "../glossary.html".data
      ∧ calculate_relative_path ["part1", "chapter1", "intro.md"] ["glossary.html"] =
          "../../glossary.html".data := by
  refine ⟨fun dir file gloss => ?_, by decide, by decide, by decide⟩
  unfold calculate_relative_path
  rw [List.dropLast_concat]

/-- The pointwise relation between an input event (annotated with the
context in force when it is reached) and the corresponding output event of
`process_events`: a `Text` event under top-of-stack context `Normal` may
become an `Html` event carrying the term-substituted text (for some state
of the linked set); every other event — inline code, text under any other
context, and all structural events — is passed through unchanged. -/
def passKept (terms : List Term) (gp : List Char) (cfg : Config) :
    Event × Context → Event → Prop
  | (.text s, .normal), o =>
    ∃ linked, o = .html (replace_terms_in_text s terms gp cfg linked).1
  | (e, _), o => o = e

theorem processEvents_passthrough (terms : List Term) (gp : List Char)
    (cfg : Config) (events : List Event) :
    ∀ (stack : List Context) (linked : List (List Char)),
    List.Forall₂ (passKept terms gp cfg) (annotateCtx stack events)
      ((processEvents terms gp cfg events stack linked).1) := by
  induction events with
  | nil =>
    intro stack linked
    exact List.Forall₂.nil
  | cons e rest ih =>
    intro stack linked
    cases e with
    | text s =>
      by_cases h : stack.head?.getD .normal = .normal
      · simp only [processEvents, annotateCtx, if_pos h, h]
        exact List.Forall₂.cons ⟨linked, rfl⟩ (ih stack _)
      · simp only [processEvents, annotateCtx, if_neg h]
        apply List.Forall₂.cons
        · cases hctx : stack.head?.getD .normal with
          | normal => exact absurd hctx h
          | codeBlock => exact rfl
          | link => exact rfl
          | heading => exact rfl
          | image => exact rfl
        · exact ih stack linked
    | start t =>
      simp only [processEvents, annotateCtx]
      exact List.Forall₂.cons rfl (ih _ linked)
    | stop t =>
      simp only [processEvents, annotateCtx]
      exact List.Forall₂.cons rfl (ih _ linked)
    | code s =>
      simp only [processEvents, annotateCtx]
      exact List.Forall₂.cons rfl (ih _ linked)
    | html s =>
      simp only [processEvents, annotateCtx]
      exact List.Forall₂.cons rfl (ih _ linked)
    | other =>
      simp only [processEvents, annotateCtx]
      exact List.Forall₂.cons rfl (ih _ linked)

/-- **C1.** For every document event stream, every `Text` event whose
top-of-stack context is not `Normal` (inside a code block, link, image or
heading) and every inline-code event is passed through to the output
unchanged; only `Text` events seen while the top of the context stack is
exactly `Normal` are candidates for term substitution (they are emitted as
the `Html` rendering of `replace_terms_in_text` on their text). -/
theorem c1_context_passthrough (events : List Event) (terms : List Term)
    (gp : List Char) (cfg : Config) :
    List.Forall₂ (passKept terms gp cfg) (annotateCtx [.normal] events)
      ((processEvents terms gp cfg events [.normal] []).1) :=
  processEvents_passthrough terms gp cfg events [.normal] []

theorem replace_skip {text : List Char} {t : Term} {gp : List Char} {cfg : Config}
    {linked : List (List Char)} (hl : cfg.link_first_only = true)
    (hm : t.anchor ∈ linked) :
    replace_terms_in_text text [t] gp cfg linked = (text, linked) := by
  unfold replace_terms_in_text
  rw [List.foldl_cons, List.foldl_nil]
  unfold replace_step
  rw [hl]
  have hc : (text, linked).2.contains t.anchor = true := by simpa using hm
  rw [hc]
  rfl

theorem replace_no_match {text : List Char} {t : Term} {gp : List Char} {cfg : Config}
    {linked : List (List Char)}
    (hf : findMatch cfg.case_sensitive t.searchable_forms text = none) :
    replace_terms_in_text text [t] gp cfg linked = (text, linked) := by
  unfold replace_terms_in_text
  rw [List.foldl_cons, List.foldl_nil]
  unfold replace_step
  by_cases hc : (cfg.link_first_only && (text, linked).2.contains t.anchor) = true
  · rw [if_pos hc]
  · rw [if_neg hc]
    simp only [hf]

theorem replace_first {text : List Char} {t : Term} {gp : List Char} {cfg : Config}
    {linked : List (List Char)} {s e : Nat} (hl : cfg.link_first_only = true)
    (hm : t.anchor ∉ linked)
    (hf : findMatch cfg.case_sensitive t.searchable_forms text = some (s, e)) :
    replace_terms_in_text text [t] gp cfg linked =
      (text.take s ++ linkFragment gp t cfg.css_class ((text.drop s).take (e - s))
        ++ text.drop e, t.anchor :: linked) := by
  unfold replace_terms_in_text
  rw [List.foldl_cons, List.foldl_nil]
  unfold replace_step
  have hc : (text, linked).2.contains t.anchor = false := by simpa using hm
  rw [hl, hc]
  simp only [Bool.and_false, Bool.false_eq_true, if_false, hf, hl, if_true]

theorem html_escape_length (m : List Char) : m.length ≤ (html_escape m).length := by
  induction m with
  | nil => simp [html_escape]
  | cons c rest ih =>
    have h1 : html_escape (c :: rest) = escChar c ++ html_escape rest := by
      simp [html_escape]
    have h2 : 1 ≤ (escChar c).length := by
      unfold escChar
      repeat' split
      all_goals simp
    rw [h1]
    simp only [List.length_append, List.length_cons]
    omega

theorem linkFragment_length {gp : List Char} {t : Term} {css m : List Char} :
    m.length < (linkFragment gp t css m).length := by
  have := html_escape_length m
  unfold linkFragment
  simp only [List.length_append, List.length_cons, List.length_nil]
  omega

theorem findMatch_some {cs : Bool} {forms : List (List Char)} {text : List Char}
    {s e : Nat} (h : findMatch cs forms text = some (s, e)) :
    ∃ f ∈ forms, matchAt cs f text s = true ∧ e = s + f.length := by
  unfold findMatch findMatchFrom at h
  obtain ⟨i, hi, hfi⟩ := List.exists_of_findSome?_eq_some h
  obtain ⟨f, hf, hff⟩ := List.exists_of_findSome?_eq_some hfi
  by_cases hm : matchAt cs f text i = true
  · rw [if_pos hm] at hff
    injection hff with h2
    rw [Prod.ext_iff] at h2
    obtain ⟨h3, h4⟩ := h2
    simp only at h3 h4
    subst h3
    exact ⟨f, hf, hm, h4.symm⟩
  · rw [if_neg hm] at hff
    exact Option.noConfusion hff

theorem findMatch_bounds {cs : Bool} {forms : List (List Char)} {text : List Char}
    {s e : Nat} (h : findMatch cs forms text = some (s, e)) :
    s ≤ e ∧ e ≤ text.length := by
  obtain ⟨f, -, hm, he⟩ := findMatch_some h
  have := matchAt_end_le hm
  omega

theorem replace_first_longer {text : List Char} {t : Term} {gp : List Char}
    {cfg : Config} {linked : List (List Char)} {s e : Nat}
    (hl : cfg.link_first_only = true) (hm : t.anchor ∉ linked)
    (hf : findMatch cfg.case_sensitive t.searchable_forms text = some (s, e)) :
    text.length < (replace_terms_in_text text [t] gp cfg linked).1.length := by
  rw [replace_first hl hm hf]
  obtain ⟨hse, hel⟩ := findMatch_bounds hf
  have hfrag := @linkFragment_length gp t cfg.css_class ((text.drop s).take (e - s))
  simp only [List.length_append, List.length_take, List.length_drop] at hfrag ⊢
  omega

/-- Whether an output event preserves the content of its input event: any
event mapped to itself, or a `Text` event mapped to the `Html` event with
the identical character content. -/
def contentKept : Event → Event → Bool
  | .text s, o => o == .text s || o == .html s
  | e, o => o == e

theorem contentKept_self (e : Event) : contentKept e e = true := by
  cases e <;> simp [contentKept]

theorem processEvents_all_kept {t : Term} {gp : List Char} {cfg : Config}
    (events : List Event) (hl : cfg.link_first_only = true) :
    ∀ (stack : List Context) (linked : List (List Char)), t.anchor ∈ linked →
    (processEvents [t] gp cfg events stack linked).2 = linked ∧
      ((events.zip (processEvents [t] gp cfg events stack linked).1).countP
        fun p => !contentKept p.1 p.2) = 0 := by
  induction events with
  | nil =>
    intro stack linked _
    exact ⟨rfl, rfl⟩
  | cons e rest ih =>
    intro stack linked hm
    cases e with
    | text s =>
      by_cases h : stack.head?.getD .normal = .normal
      · simp only [processEvents, if_pos h, replace_skip hl hm]
        have := ih stack linked hm
        rw [List.zip_cons_cons, List.countP_cons]
        simp only [contentKept, beq_self_eq_true, Bool.or_true, Bool.not_true]
        simpa using this
      · simp only [processEvents, if_neg h]
        have := ih stack linked hm
        rw [List.zip_cons_cons, List.countP_cons]
        simp only [contentKept, beq_self_eq_true, Bool.true_or, Bool.not_true]
        simpa using this
    | start tag =>
      simp only [processEvents]
      have := ih (stackStep stack (.start tag)) linked hm
      rw [List.zip_cons_cons, List.countP_cons]
      simp only [contentKept, beq_self_eq_true, Bool.not_true]
      simpa using this
    | stop tag =>
      simp only [processEvents]
      have := ih (stackStep stack (.stop tag)) linked hm
      rw [List.zip_cons_cons, List.countP_cons]
      simp only [contentKept, beq_self_eq_true, Bool.not_true]
      simpa using this
    | code s =>
      simp only [processEvents]
      have := ih (stackStep stack (.code s)) linked hm
      rw [List.zip_cons_cons, List.countP_cons]
      simp only [contentKept, beq_self_eq_true, Bool.not_true]
      simpa using this
    | html s =>
      simp only [processEvents]
      have := ih (stackStep stack (.html s)) linked hm
      rw [List.zip_cons_cons, List.countP_cons]
      simp only [contentKept, beq_self_eq_true, Bool.not_true]
      simpa using this
    | other =>
      simp only [processEvents]
      have := ih (stackStep stack .other) linked hm
      rw [List.zip_cons_cons, List.countP_cons]
      simp only [contentKept, beq_self_eq_true, Bool.not_true]
      simpa using this

theorem processEvents_at_most_one {t : Term} {gp : List Char} {cfg : Config}
    (events : List Event) (hl : cfg.link_first_only = true) :
    ∀ (stack : List Context) (linked : List (List Char)),
    ((events.zip (processEvents [t] gp cfg events stack linked).1).countP
      fun p => !contentKept p.1 p.2) ≤ 1 := by
  induction events with
  | nil =>
    intro stack linked
    simp [processEvents]
  | cons e rest ih =>
    intro stack linked
    cases e with
    | text s =>
      by_cases h : stack.head?.getD .normal = .normal
      · by_cases hm : t.anchor ∈ linked
        · simp only [processEvents, if_pos h, replace_skip hl hm]
          rw [List.zip_cons_cons, List.countP_cons]
          have hk : contentKept (.text s) (.html s) = true := by
            simp [contentKept]
          rw [hk]
          simpa using ih stack linked
        · cases hf : findMatch cfg.case_sensitive t.searchable_forms s with
          | none =>
            simp only [processEvents, if_pos h, replace_no_match hf]
            rw [List.zip_cons_cons, List.countP_cons]
            have hk : contentKept (.text s) (.html s) = true := by
              simp [contentKept]
            rw [hk]
            simpa using ih stack linked
          | some se =>
            obtain ⟨ms, me⟩ := se
            simp only [processEvents, if_pos h, replace_first hl hm hf]
            rw [List.zip_cons_cons, List.countP_cons]
            have htail := (@processEvents_all_kept t gp cfg rest hl stack
              (t.anchor :: linked) (List.mem_cons_self _ _)).2
            simp only at htail ⊢
            rw [htail]
            split <;> omega
      · simp only [processEvents, if_neg h]
        rw [List.zip_cons_cons, List.countP_cons, contentKept_self]
        simpa using ih stack linked
    | start tag =>
      simp only [processEvents]
      rw [List.zip_cons_cons, List.countP_cons, contentKept_self]
      simpa using ih (stackStep stack (.start tag)) linked
    | stop tag =>
      simp only [processEvents]
      rw [List.zip_cons_cons, List.countP_cons, contentKept_self]
      simpa using ih (stackStep stack (.stop tag)) linked
    | code s =>
      simp only [processEvents]
      rw [List.zip_cons_cons, List.countP_cons, contentKept_self]
      simpa using ih (stackStep stack (.code s)) linked
    | html s =>
      simp only [processEvents]
      rw [List.zip_cons_cons, List.countP_cons, contentKept_self]
      simpa using ih (stackStep stack (.html s)) linked
    | other =>
      simp only [processEvents]
      rw [List.zip_cons_cons, List.countP_cons, contentKept_self]
      simpa using ih (stackStep stack .other) linked

theorem titleAttr_eq_nil_iff (t : Term) : titleAttr t = [] ↔ t.definition = none := by
  cases hd : t.definition with
  | none => simp [titleAttr, hd]
  | some d => simp [titleAttr, hd]

theorem titleAttr_of_some (t : Term) (d : List Char) (h : t.definition = some d) :
    titleAttr t = " title=\"".data ++ html_escape d ++ "\"".data := by
  simp [titleAttr, h]

theorem html_escape_of_plain (m : List Char)
    (h : ∀ c ∈ m, c ≠ '&' ∧ c ≠ '<' ∧ c ≠ '>' ∧ c ≠ '"') : html_escape m = m := by
  induction m with
  | nil => rfl
  | cons c rest ih =>
    have hc := h c (List.mem_cons_self _ _)
    have h1 : escChar c = [c] := by
      unfold escChar
      rw [if_neg hc.1, if_neg hc.2.1, if_neg hc.2.2.1, if_neg hc.2.2.2]
    have h2 : html_escape (c :: rest) = escChar c ++ html_escape rest := by
      simp [html_escape]
    rw [h2, h1, ih (fun x hx => h x (List.mem_cons_of_mem _ hx))]
    rfl

/-- **C2.** With `link_first_only = true`, at most one occurrence of a
term's surface forms across the whole document becomes a link: a term whose
anchor is already in the per-document linked set is skipped entirely
(conjunct 1); over a whole event stream the content of at most one event is
changed for a given term (conjunct 2); when the term is not yet linked, the
first regex match of the first eligible span is replaced by the link
fragment and its anchor is added to the linked set, genuinely changing the
span (conjunct 3); concretely, a text with two occurrences of `XPT` gets
exactly one link while the other occurrence stays literal (conjunct 4). -/
theorem c2_link_first_once :
    (∀ (text : List Char) (t : Term) (gp : List Char) (cfg : Config)
        (linked : List (List Char)), cfg.link_first_only = true →
        t.anchor ∈ linked →
        replace_terms_in_text text [t] gp cfg linked = (text, linked))
    ∧ (∀ (t : Term) (gp : List Char) (cfg : Config) (events : List Event)
        (stack : List Context) (linked : List (List Char)),
        cfg.link_first_only = true →
        ((events.zip (processEvents [t] gp cfg events stack linked).1).countP
          fun p => !contentKept p.1 p.2) ≤ 1)
    ∧ (∀ (text : List Char) (t : Term) (gp : List Char) (cfg : Config)
        (linked : List (List Char)) (s e : Nat), cfg.link_first_only = true →
        t.anchor ∉ linked →
        findMatch cfg.case_sensitive t.searchable_forms text = some (s, e) →
        replace_terms_in_text text [t] gp cfg linked =
          (text.take s ++ linkFragment gp t cfg.css_class ((text.drop s).take (e - s))
            ++ text.drop e, t.anchor :: linked)
          ∧ (replace_terms_in_text text [t] gp cfg linked).1 ≠ text)
    ∧ replace_terms_in_text "XPT is great. XPT is used.".data [Term.new "XPT".data]
        "g.html".data defaultConfig [] =
        ("<a href=\"g.html#xpt\" class=\"glossary-term\">XPT</a> is great. XPT is used.".data,
          ["xpt".data]) := by
  refine ⟨fun text t gp cfg linked hl hm => replace_skip hl hm,
    fun t gp cfg events stack linked hl => processEvents_at_most_one events hl stack linked,
    fun text t gp cfg linked s e hl hm hf => ⟨replace_first hl hm hf, ?_⟩,
    by decide⟩
  have hlen := @replace_first_longer text t gp cfg linked s e hl hm hf
  intro heq
  rw [heq] at hlen
  omega

/-- Closed instance of `c2_link_first_once`: the skip rule, the at-most-one
bound and the first-replacement equation at concrete inputs. -/
theorem c2_link_first_once_witness :
    (replace_terms_in_text "XPT".data [Term.new "XPT".data] "g.html".data
        defaultConfig ["xpt".data] = ("XPT".data, ["xpt".data]))
    ∧ ((([Event.text "XPT is great. XPT is used.".data].zip
        (processEvents [Term.new "XPT".data] "g.html".data defaultConfig
          [Event.text "XPT is great. XPT is used.".data] [.normal] []).1).countP
        fun p => !contentKept p.1 p.2) ≤ 1)
    ∧ (replace_terms_in_text "XPT is great. XPT is used.".data [Term.new "XPT".data]
        "g.html".data defaultConfig []).1 ≠ "XPT is great. XPT is used.".data :=
  ⟨c2_link_first_once.1 "XPT".data (Term.new "XPT".data) "g.html".data defaultConfig
      ["xpt".data] rfl (by decide),
    c2_link_first_once.2.1 (Term.new "XPT".data) "g.html".data defaultConfig
      [Event.text "XPT is great. XPT is used.".data] [.normal] [] rfl,
    (c2_link_first_once.2.2.1 "XPT is great. XPT is used.".data (Term.new "XPT".data)
      "g.html".data defaultConfig [] 0 3 rfl (by decide) (by decide)).2⟩

/-- **C7.** Every replaced match is spliced in as the link fragment whose
href is the glossary relative path followed by `#` and the term's anchor,
whose `title` attribute is present (with the HTML-escaped definition)
exactly when the term has a definition, which carries the configured CSS
class, and whose visible link text is the HTML-escaped matched substring of
the original text — so the original casing is preserved verbatim even under
case-insensitive matching (HTML escaping is the identity on text without
`&<>"`); concretely, term `REST` with alias `RESTful` applied to
`"a RESTful service"` yields a link with href anchor `#rest` and visible
text `RESTful`. -/
theorem c7_link_fragment :
    (∀ (text : List Char) (t : Term) (gp : List Char) (cfg : Config)
        (linked : List (List Char)) (s e : Nat), cfg.link_first_only = true →
        t.anchor ∉ linked →
        findMatch cfg.case_sensitive t.searchable_forms text = some (s, e) →
        (replace_terms_in_text text [t] gp cfg linked).1 =
          text.take s
            ++ ("<a href=\"".data ++ gp ++ "#".data ++ t.anchor ++ "\"".data
              ++ titleAttr t ++ " class=\"".data ++ cfg.css_class ++ "\">".data
              ++ html_escape ((text.drop s).take (e - s)) ++ "</a>".data)
            ++ text.drop e)
    ∧ (∀ t : Term, titleAttr t = [] ↔ t.definition = none)
    ∧ (∀ (t : Term) (d : List Char), t.definition = some d →
        titleAttr t = " title=\"".data ++ html_escape d ++ "\"".data)
    ∧ (∀ m : List Char, (∀ c ∈ m, c ≠ '&' ∧ c ≠ '<' ∧ c ≠ '>' ∧ c ≠ '"') →
        html_escape m = m)
    ∧ replace_terms_in_text "a RESTful service".data
        [(Term.new "REST".data).with_aliases ["RESTful".data]]
        "glossary.html".data defaultConfig [] =
        ("a <a href=\"glossary.html#rest\" class=\"glossary-term\">RESTful</a> service".data,
          ["rest".data]) :=
  ⟨fun text t gp cfg linked s e hl hm hf => by
      rw [replace_first hl hm hf]
      rfl,
    titleAttr_eq_nil_iff, titleAttr_of_some, html_escape_of_plain, by decide⟩

/-- Closed instance of `c7_link_fragment` at the `REST`/`RESTful` example
and at a term with a definition. -/
theorem c7_link_fragment_witness :
    ((replace_terms_in_text "a RESTful service".data
        [(Term.new "REST".data).with_aliases ["RESTful".data]]
        "glossary.html".data defaultConfig []).1 =
      "a RESTful service".data.take 2
        ++ ("<a href=\"".data ++ "glossary.html".data ++ "#".data
          ++ ((Term.new "REST".data).with_aliases ["RESTful".data]).anchor ++ "\"".data
          ++ titleAttr ((Term.new "REST".data).with_aliases ["RESTful".data])
          ++ " class=\"".data ++ defaultConfig.css_class ++ "\">".data
          ++ html_escape (("a RESTful service".data.drop 2).take (9 - 2)) ++ "</a>".data)
        ++ "a RESTful service".data.drop 9)
    ∧ titleAttr (Term.with_definition "API".data (some "a <def>".data)) =
        " title=\"".data ++ html_escape "a <def>".data ++ "\"".data
    ∧ html_escape "RESTful".data = "RESTful".data :=
  ⟨c7_link_fragment.1 "a RESTful service".data
      ((Term.new "REST".data).with_aliases ["RESTful".data]) "glossary.html".data
      defaultConfig [] 2 9 rfl (by decide) (by decide),
    c7_link_fragment.2.2.1 (Term.with_definition "API".data (some "a <def>".data))
      "a <def>".data rfl,
    c7_link_fragment.2.2.2.1 "RESTful".data (by decide)⟩

/-- **C3 (counterexample).** The inserted replacement is not opaque: with
terms `API Gateway` and `API` (processed longest-first) on the text
`"API Gateway"`, the first term's fragment occupies the whole rewritten
span, the second term's regex then matches `api` at positions 23–26 —
inside the first fragment's href — and the final output nests a second link
inside the first link's href attribute. -/
theorem c3_rematch_counterexample :
    (replace_terms_in_text "API Gateway".data [Term.new "API Gateway".data]
        "glossary.html".data defaultConfig []).1 =
      "<a href=\"glossary.html#api-gateway\" class=\"glossary-term\">API Gateway</a>".data
    ∧ findMatch false (Term.new "API".data).searchable_forms
        "<a href=\"glossary.html#api-gateway\" class=\"glossary-term\">API Gateway</a>".data
        = some (23, 26)
    ∧ replace_terms_in_text "API Gateway".data
        [Term.new "API Gateway".data, Term.new "API".data]
        "glossary.html".data defaultConfig [] =
      ("<a href=\"glossary.html#<a href=\"glossary.html#api\" class=\"glossary-term\">api</a>-gateway\" class=\"glossary-term\">API Gateway</a>".data,
        ["api".data, "api-gateway".data]) :=
  ⟨by decide, by decide, by decide⟩

/-- **C3 (amended).** Later terms are matched against the flat, already
rewritten text in which earlier terms' fragments are ordinary characters
(conjunct 1: processing a term list steps through `replace_step` on the
updated text); a later term's surface form occurring inside an earlier
term's inserted fragment is re-matched and re-linked whenever its
word-boundary and case-folding conditions hold there (conjunct 2: the
term `API` ends up linked on `"API Gateway"` even though its only match in
the updated text lies inside the first term's href). -/
theorem c3_amended_flat_rescan :
    (∀ (text : List Char) (t1 : Term) (rest : List Term) (gp : List Char)
        (cfg : Config) (linked : List (List Char)),
      replace_terms_in_text text (t1 :: rest) gp cfg linked =
        replace_terms_in_text (replace_step gp cfg (text, linked) t1).1 rest gp cfg
          (replace_step gp cfg (text, linked) t1).2)
    ∧ (replace_terms_in_text "API Gateway".data
        [Term.new "API Gateway".data, Term.new "API".data]
        "glossary.html".data defaultConfig []).2 =
      ["api".data, "api-gateway".data] :=
  ⟨fun _ _ _ _ _ _ => rfl, by decide⟩

/-- Whether a book item is a chapter whose path matches the configured
glossary path (exact match or component-wise suffix), i.e. the loop
condition of `find_glossary_content`. -/
def isGlossaryChapter (gp : List String) : BookItem → Bool
  | .chapter c =>
    match c.path with
    | some p => decide (p = gp) || gp.isSuffixOf p
    | none => false
  | .other => false

theorem find_glossary_eq (book : List BookItem) (gp : List String) :
    find_glossary_content book gp =
      match book.find? (isGlossaryChapter gp) with
      | some (.chapter c) => .ok c.content
      | _ => .error ("Glossary file not found: ".data
          ++ (String.intercalate "/" gp).data) := by
  induction book with
  | nil => rfl
  | cons item rest ih =>
    cases item with
    | chapter c =>
      cases hp : c.path with
      | none =>
        rw [List.find?_cons]
        have hpred : isGlossaryChapter gp (.chapter c) = false := by
          simp [isGlossaryChapter, hp]
        rw [hpred]
        simp only [find_glossary_content, hp]
        exact ih
      | some p =>
        by_cases hm : p = gp ∨ gp.isSuffixOf p = true
        · rw [List.find?_cons]
          have hpred : isGlossaryChapter gp (.chapter c) = true := by
            simp only [isGlossaryChapter, hp]
            rcases hm with hm | hm
            · simp [hm]
            · simp [hm]
          rw [hpred]
          simp only [find_glossary_content, hp]
          rw [if_pos hm]
        · rw [List.find?_cons]
          have hpred : isGlossaryChapter gp (.chapter c) = false := by
            simp only [isGlossaryChapter, hp]
            push_neg at hm
            simp [hm.1, hm.2]
          rw [hpred]
          simp only [find_glossary_content, hp]
          rw [if_neg hm]
          exact ih
    | other =>
      rw [List.find?_cons]
      have hpred : isGlossaryChapter gp .other = false := rfl
      rw [hpred]
      simp only [find_glossary_content]
      exact ih

/-- **C9.** Term extraction returns an error exactly when no document in
the book has a path equal to the configured glossary path or ending with it
as a component-wise suffix (conjunct 1); when the first such document
exists, extraction succeeds and returns the terms parsed from its content
(conjunct 2); and an extraction error aborts the run with that error, so no
document is touched (conjunct 3). -/
theorem c9_glossary_not_found :
    (∀ (book : List BookItem) (cfg : Config),
      (∃ e, extract_terms book cfg = .error e) ↔
        ∀ item ∈ book, isGlossaryChapter cfg.glossary_path item = false)
    ∧ (∀ (book : List BookItem) (cfg : Config) (c : Chapter),
        book.find? (isGlossaryChapter cfg.glossary_path) = some (.chapter c) →
        extract_terms book cfg = .ok (parse_definition_lists c.content))
    ∧ (∀ (book : List BookItem) (cfg : Config) (e : List Char),
        extract_terms book cfg = .error e → run cfg book = .error e) := by
  refine ⟨fun book cfg => ?_, fun book cfg c hfind => ?_, fun book cfg e hext => ?_⟩
  · unfold extract_terms
    rw [find_glossary_eq]
    cases hfind : book.find? (isGlossaryChapter cfg.glossary_path) with
    | none =>
      simp only [Except.map]
      constructor
      · intro _
        simpa using List.find?_eq_none.mp hfind
      · intro _
        exact ⟨_, rfl⟩
    | some item =>
      have hp := List.find?_some hfind
      have hmem := List.mem_of_find?_eq_some hfind
      cases item with
      | chapter c =>
        simp only [Except.map]
        constructor
        · rintro ⟨e, he⟩
          exact Except.noConfusion he
        · intro hall
          rw [hall _ hmem] at hp
          exact Bool.noConfusion hp
      | other => exact Bool.noConfusion hp
  · unfold extract_terms
    rw [find_glossary_eq, hfind]
    rfl
  · unfold run
    rw [hext]

/-- Closed instance of `c9_glossary_not_found`: on the empty book the run
aborts with the glossary-not-found error; on a book holding the glossary
chapter, extraction returns the parsed terms. -/
theorem c9_glossary_not_found_witness :
    run defaultConfig [] =
      .error ("Glossary file not found: reference/glossary.md".data)
    ∧ extract_terms [BookItem.chapter ⟨some ["reference", "glossary.md"], []⟩]
        defaultConfig =
      .ok (parse_definition_lists ([] : List Event)) :=
  ⟨c9_glossary_not_found.2.2 [] defaultConfig
      "Glossary file not found: reference/glossary.md".data rfl,
    c9_glossary_not_found.2.1 [BookItem.chapter ⟨some ["reference", "glossary.md"], []⟩]
      defaultConfig ⟨some ["reference", "glossary.md"], []⟩ (by decide)⟩

/-- **C10.** When the glossary document is found but yields zero terms, the
run succeeds and returns every document unchanged — the empty-term case is
a no-op, not an error. -/
theorem c10_zero_terms_noop (book : List BookItem) (cfg : Config)
    (h : extract_terms book cfg = .ok []) : run cfg book = .ok book := by
  unfold run
  rw [h]
  rfl

/-- Closed instance of `c10_zero_terms_noop`: a glossary chapter whose
content holds no definition list yields zero terms and the book comes back
unchanged. -/
theorem c10_zero_terms_noop_witness :
    run defaultConfig
      [BookItem.chapter ⟨some ["reference", "glossary.md"],
        [Event.text "no definitions here".data]⟩,
       BookItem.chapter ⟨some ["intro.md"], [Event.text "Some prose".data]⟩] =
    .ok
      [BookItem.chapter ⟨some ["reference", "glossary.md"],
        [Event.text "no definitions here".data]⟩,
       BookItem.chapter ⟨some ["intro.md"], [Event.text "Some prose".data]⟩] :=
  c10_zero_terms_noop _ defaultConfig rfl
